import Mathlib

/-!
Verification of the lohdb embedded key-value store.

The development shallowly embeds the Rust sources:
  * `src/db/wal.rs`    — `Operation`, `WriteAheadLog::append` / `replay`
  * `src/db/engine.rs` — `FileStorageEngine` (`initialize`, `store`, `retrieve`,
                         `remove`, `flush`, `load_from_disk`, `save_to_disk`)
  * `src/db/kv.rs`     — `Database` (`open`, `set`, `get`, `delete`)
  * `src/db/subscriber.rs` — `EventBus::publish`

Keys and values are byte sequences, modelled as `List Nat`; files are byte
sequences as well.  The bincode serialization used by the code (fixed-width
little-endian integers, u64 length-counted byte strings, u32 enum tags,
trailing bytes tolerated by `bincode::deserialize`) is modelled concretely.
-/

namespace LohDB


/-- A key (`String` in the Rust code) is modelled as its byte sequence. -/
abbrev Key := List Nat

/-- A value (`Vec<u8>` in the Rust code) as a byte sequence. -/
abbrev Value := List Nat

/-- `Operation` from `src/db/wal.rs`: the unit of durability recorded in the WAL. -/
inductive Operation where
  | set (key : Key) (value : Value)
  | delete (key : Key)
  deriving DecidableEq, Repr

/-- `ChangeEvent` from `src/db/subscriber.rs`, mirroring `Operation`. -/
inductive ChangeEvent where
  | set (key : Key) (value : Value)
  | delete (key : Key)
  deriving DecidableEq, Repr

/-- The four bytes of a `u32` in little-endian order (`u32::to_le_bytes`). -/
def u32le (n : Nat) : List Nat :=
  [n % 256, n / 256 % 256, n / 256 ^ 2 % 256, n / 256 ^ 3 % 256]

/-- The eight bytes of a `u64` in little-endian order (bincode fixint encoding). -/
def u64le (n : Nat) : List Nat :=
  [n % 256, n / 256 % 256, n / 256 ^ 2 % 256, n / 256 ^ 3 % 256,
   n / 256 ^ 4 % 256, n / 256 ^ 5 % 256, n / 256 ^ 6 % 256, n / 256 ^ 7 % 256]

/-- Little-endian interpretation of a byte sequence (`u32::from_le_bytes` etc.). -/
def leNat (bs : List Nat) : Nat :=
  bs.foldr (fun b acc => b + 256 * acc) 0

/-- `bincode::serialize` of an `Operation` (`src/db/wal.rs` lines 7-11):
a u32 little-endian variant tag, then each field; a byte string is a u64
little-endian length followed by the bytes. -/
def serializeOp : Operation → List Nat
  | .set k v => u32le 0 ++ (u64le k.length ++ (k ++ (u64le v.length ++ v)))
  | .delete k => u32le 1 ++ (u64le k.length ++ k)

/-- Read `n` bytes as a little-endian integer, returning the remaining bytes;
fails when fewer than `n` bytes remain. -/
def readLE (n : Nat) (bs : List Nat) : Option (Nat × List Nat) :=
  if bs.length < n then none else some (leNat (bs.take n), bs.drop n)

/-- Read a run of `n` raw bytes, returning them and the remaining bytes. -/
def readBytes (n : Nat) (bs : List Nat) : Option (List Nat × List Nat) :=
  if bs.length < n then none else some (bs.take n, bs.drop n)

/-- `bincode::deserialize::<Operation>`: parse the u32 variant tag and the
fields; bytes left over after a complete value are tolerated (bincode's
`deserialize` allows trailing bytes). -/
def decodeOp (bs : List Nat) : Option Operation :=
  (readLE 4 bs).bind fun t0 =>
    if t0.1 = 0 then
      (readLE 8 t0.2).bind fun l1 =>
        (readBytes l1.1 l1.2).bind fun k2 =>
          (readLE 8 k2.2).bind fun l3 =>
            (readBytes l3.1 l3.2).map fun v4 => .set k2.1 v4.1
    else if t0.1 = 1 then
      (readLE 8 t0.2).bind fun l1 =>
        (readBytes l1.1 l1.2).map fun k2 => .delete k2.1
    else none

/-- One WAL record as written by `WriteAheadLog::append` (`src/db/wal.rs`
lines 39-49): 4-byte little-endian length, then the serialized operation.
(The code casts the length to `u32`; `opWf` below records the bound.) -/
def encodeRecord (op : Operation) : List Nat :=
  u32le (serializeOp op).length ++ serializeOp op

/-- The WAL file bytes produced by a sequence of appends. -/
def encodeRecords : List Operation → List Nat
  | [] => []
  | op :: rest => encodeRecord op ++ encodeRecords rest

/-- Well-formedness of an operation for the on-disk format: its serialized
form fits the u32 length field written by `append` (`serialized.len() as u32`). -/
def opWf (op : Operation) : Prop := (serializeOp op).length < 2 ^ 32

instance (op : Operation) : Decidable (opWf op) := by
  unfold opWf; infer_instance

/-- `WriteAheadLog::replay` (`src/db/wal.rs` lines 51-91) on the file bytes.
Returns the operations passed to the callback in file order, and `true` iff
replay returned `Ok`:
  * fewer than 4 bytes remain — `read_exact` of the length prefix fails with
    `UnexpectedEof`, the loop breaks, replay succeeds;
  * the 4-byte length is read but fewer payload bytes remain than announced —
    the payload `read_exact` fails and the error is propagated (`?`);
  * the payload does not deserialize — the loop breaks, replay succeeds;
  * otherwise the callback is invoked and the loop continues. -/
def replayRun (bs : List Nat) : List Operation × Bool :=
  if bs.length < 4 then ([], true)
  else
    let len := leNat (bs.take 4)
    let rest := bs.drop 4
    if rest.length < len then ([], false)
    else
      match decodeOp (rest.take len) with
      | none => ([], true)
      | some op =>
        let r := replayRun (rest.drop len)
        (op :: r.1, r.2)
termination_by bs.length
decreasing_by
  simp only [List.length_drop]
  omega

/-! ## The storage engine (`src/db/engine.rs`)

`HashMap<String, Vec<u8>>` is modelled as an association list with
HashMap semantics: `alInsert` replaces the entry for an existing key,
`alRemove` drops a key's entries, `alLookup` finds a key's value. -/

/-- `HashMap::insert`: replace in place if the key is present, else add. -/
def alInsert (k : Key) (v : Value) : List (Key × Value) → List (Key × Value)
  | [] => [(k, v)]
  | e :: rest => if e.1 = k then (k, v) :: rest else e :: alInsert k v rest

/-- `HashMap::remove` (as a mapping operation): drop the key's entries. -/
def alRemove (k : Key) : List (Key × Value) → List (Key × Value)
  | [] => []
  | e :: rest => if e.1 = k then alRemove k rest else e :: alRemove k rest

/-- `HashMap::get`. -/
def alLookup (k : Key) : List (Key × Value) → Option Value
  | [] => none
  | e :: rest => if e.1 = k then some e.2 else alLookup k rest

/-- `FileStorageEngine` (`src/db/engine.rs` lines 66-70): the in-memory
mapping and the dirty flag.  (`data_dir` only fixes file paths and is
carried by the file-system arguments of the operations below.) -/
structure FileStorageEngine where
  data : List (Key × Value)
  dirty : Bool
  deriving DecidableEq, Repr

/-- `FileStorageEngine::new` (lines 72-79): empty mapping, not dirty. -/
def FileStorageEngine.new : FileStorageEngine := ⟨[], false⟩

/-- `FileStorageEngine::store` (lines 122-126): insert and mark dirty. -/
def FileStorageEngine.store (e : FileStorageEngine) (k : Key) (v : Value) :
    FileStorageEngine :=
  { data := alInsert k v e.data, dirty := true }

/-- `FileStorageEngine::retrieve` (lines 128-130): read the mapping. -/
def FileStorageEngine.retrieve (e : FileStorageEngine) (k : Key) : Option Value :=
  alLookup k e.data

/-- `FileStorageEngine::remove` (lines 132-138): remove, report whether the
key existed, and mark dirty only when it did. -/
def FileStorageEngine.remove (e : FileStorageEngine) (k : Key) :
    FileStorageEngine × Bool :=
  let existed := (alLookup k e.data).isSome
  ({ data := alRemove k e.data, dirty := if existed then true else e.dirty }, existed)

/-- bincode encoding of one map entry: u64 key length, key bytes, u64 value
length, value bytes. -/
def encodeEntry (e : Key × Value) : List Nat :=
  u64le e.1.length ++ (e.1 ++ (u64le e.2.length ++ e.2))

/-- `bincode::serialize` of the `HashMap`: u64 entry count, then the entries. -/
def encodeSnapshot (d : List (Key × Value)) : List Nat :=
  u64le d.length ++ (d.map encodeEntry).flatten

/-- Parse `n` map entries. -/
def decodeEntries : Nat → List Nat → Option (List (Key × Value))
  | 0, _ => some []
  | n + 1, bs =>
    (readLE 8 bs).bind fun l1 =>
      (readBytes l1.1 l1.2).bind fun k2 =>
        (readLE 8 k2.2).bind fun l3 =>
          (readBytes l3.1 l3.2).bind fun v4 =>
            (decodeEntries n v4.2).map fun rest => (k2.1, v4.1) :: rest

/-- `bincode::deserialize` of a `HashMap` snapshot: u64 count, then entries
(bincode's `deserialize` tolerates trailing bytes). -/
def decodeSnapshot (bs : List Nat) : Option (List (Key × Value)) :=
  (readLE 8 bs).bind fun c => decodeEntries c.1 c.2

/-- The `HashMap` built by the deserializer inserting each decoded entry. -/
def entriesToMap (entries : List (Key × Value)) : List (Key × Value) :=
  entries.foldl (fun acc e => alInsert e.1 e.2 acc) []

/-- Error taxonomy of the crate (`anyhow` carrying io / bincode errors). -/
inductive DbError where
  | io
  | serialization
  deriving DecidableEq, Repr

/-- `FileStorageEngine::load_from_disk` (lines 85-99), with the snapshot
file contents (`none` = the path does not exist) passed explicitly:
a missing or empty file leaves the mapping untouched and succeeds; a
non-empty file either decodes into the mapping or fails with a
serialization error, the mapping unmodified. -/
def FileStorageEngine.loadFromDisk (e : FileStorageEngine)
    (file : Option (List Nat)) : FileStorageEngine × Option DbError :=
  match file with
  | none => (e, none)
  | some bytes =>
    if bytes.isEmpty then (e, none)
    else
      match decodeSnapshot bytes with
      | some entries => ({ e with data := entriesToMap entries }, none)
      | none => (e, some DbError.serialization)

/-- `FileStorageEngine::initialize` (lines 118-120) = `load_from_disk`. -/
def FileStorageEngine.initEngine (e : FileStorageEngine)
    (file : Option (List Nat)) : FileStorageEngine × Option DbError :=
  e.loadFromDisk file

/-- `FileStorageEngine::save_to_disk` (lines 101-114): nothing happens
unless dirty; otherwise serialize the whole mapping, overwrite the snapshot
file, and clear the flag.  Returns (engine, file, whether a write occurred). -/
def FileStorageEngine.saveToDisk (e : FileStorageEngine)
    (file : Option (List Nat)) :
    FileStorageEngine × Option (List Nat) × Bool :=
  if e.dirty = false then (e, file, false)
  else ({ e with dirty := false }, some (encodeSnapshot e.data), true)

/-- `FileStorageEngine::flush` (lines 144-146) = `save_to_disk`. -/
def FileStorageEngine.flush (e : FileStorageEngine) (file : Option (List Nat)) :
    FileStorageEngine × Option (List Nat) × Bool :=
  e.saveToDisk file

/-! ## The event bus (`src/db/subscriber.rs`) -/

/-- One registered subscriber's delivery channel: its pending event queue
and whether the receiving side is gone (worker exited, channel closed). -/
structure SubscriberQueue where
  queue : List ChangeEvent
  closed : Bool
  deriving DecidableEq, Repr

/-- crossbeam `Sender::try_send` on an unbounded channel: enqueues and
succeeds unless the channel is disconnected; it never waits. -/
def trySend (ev : ChangeEvent) (q : SubscriberQueue) : SubscriberQueue × Bool :=
  if q.closed then (q, false)
  else ({ q with queue := q.queue ++ [ev] }, true)

/-- `EventBus::publish` (`src/db/subscriber.rs` lines 72-79): `try_send` the
event to every registered subscriber, discarding each result
(`let _ = sender.try_send(..)`), and return `Ok(())`. -/
def publish (ev : ChangeEvent) (subs : List SubscriberQueue) :
    List SubscriberQueue × Except DbError Unit :=
  (subs.map fun q => (trySend ev q).1, Except.ok ())

/-! ## The coordinator (`src/db/kv.rs`)

The `Database` state visible to the embedded operations: the storage
engine, the WAL file bytes, and the sequence of events handed to
`EventBus::publish` in order.  WAL append faults are injected through a
boolean (`true` = the file write succeeds). -/

structure DBState where
  engine : FileStorageEngine
  wal : List Nat
  events : List ChangeEvent
  deriving DecidableEq, Repr

/-- `WriteAheadLog::append` (`src/db/wal.rs` lines 39-49) with its io
outcome injected: on success the length-prefixed record is appended. -/
def walAppend (ok : Bool) (op : Operation) (wal : List Nat) : Option (List Nat) :=
  if ok then some (wal ++ encodeRecord op) else none

/-- `Database::set` (`src/db/kv.rs` lines 77-94): append to the WAL first
(aborting on failure), then store, then publish a `Set` event. -/
def dbSet (walOk : Bool) (k : Key) (v : Value) (s : DBState) :
    DBState × Except DbError Unit :=
  match walAppend walOk (.set k v) s.wal with
  | none => (s, Except.error DbError.io)
  | some wal' =>
    ({ engine := s.engine.store k v, wal := wal',
       events := s.events ++ [ChangeEvent.set k v] }, Except.ok ())

/-- `Database::get` (`src/db/kv.rs` lines 96-98): a single read from the
storage engine; the state is only borrowed. -/
def dbGet (k : Key) (s : DBState) : DBState × Option Value :=
  (s, s.engine.retrieve k)

/-- `Database::delete` (`src/db/kv.rs` lines 100-120): append a `Delete`
record to the WAL first (aborting on failure), then remove from storage,
publishing a `Delete` event only when the key existed; returns `existed`. -/
def dbDelete (walOk : Bool) (k : Key) (s : DBState) :
    DBState × Except DbError Bool :=
  match walAppend walOk (.delete k) s.wal with
  | none => (s, Except.error DbError.io)
  | some wal' =>
    let r := s.engine.remove k
    ({ engine := r.1, wal := wal',
       events := if r.2 then s.events ++ [ChangeEvent.delete k] else s.events },
     Except.ok r.2)

/-- The replay closure of `Database::open` (`src/db/kv.rs` lines 34-45):
a `Set` is stored, a `Delete` is removed (its result discarded). -/
def applyOp (e : FileStorageEngine) : Operation → FileStorageEngine
  | .set k v => e.store k v
  | .delete k => (e.remove k).1

/-- Replaying a whole operation sequence against an engine. -/
def applyOps (ops : List Operation) (e : FileStorageEngine) : FileStorageEngine :=
  ops.foldl applyOp e

/-- `Database::open` (`src/db/kv.rs` lines 23-75) on the two files of the
data directory: construct and initialize the file storage engine from the
snapshot, then replay the WAL into it; a replay error aborts the open. -/
def dbOpen (snapshot : Option (List Nat)) (walBytes : List Nat) :
    Except DbError DBState :=
  let r0 := FileStorageEngine.new.initEngine snapshot
  match r0.2 with
  | some e => Except.error e
  | none =>
    let rep := replayRun walBytes
    if rep.2 then
      Except.ok { engine := applyOps rep.1 r0.1, wal := walBytes, events := [] }
    else Except.error DbError.io

/-- A `set` or `delete` call of a client session (the public mutation
surface quantified over by the spec's recovery property). -/
inductive DbCall where
  | set (k : Key) (v : Value)
  | delete (k : Key)
  deriving DecidableEq, Repr

/-- The operation a call logs to the WAL. -/
def callOp : DbCall → Operation
  | .set k v => .set k v
  | .delete k => .delete k

/-- Run a session of fault-free calls in order. -/
def runCalls (calls : List DbCall) (s : DBState) : DBState :=
  calls.foldl
    (fun s c =>
      match c with
      | .set k v => (dbSet true k v s).1
      | .delete k => (dbDelete true k s).1) s

/-- A freshly created database on an empty data directory. -/
def emptyDB : DBState := ⟨FileStorageEngine.new, [], []⟩

/-- The effect of a single replayed operation on one key: `some r` when the
operation touches the key (writing value `r`), `none` when it leaves it alone. -/
def opTouch (op : Operation) (k : Key) : Option (Option Value) :=
  match op with
  | .set k' v => if k' = k then some (some v) else none
  | .delete k' => if k' = k then some none else none

/-- The last effect a sequence of operations has on one key, if any. -/
def lastTouch : List Operation → Key → Option (Option Value)
  | [], _ => none
  | op :: rest, k =>
    match lastTouch rest k with
    | some r => some r
    | none => opTouch op k

/-- Well-formedness of a snapshot for the bincode on-disk format: the entry
count and every byte-string length fit in the u64 length fields. -/
def snapWf (d : List (Key × Value)) : Prop :=
  d.length < 2 ^ 64 ∧ ∀ e ∈ d, e.1.length < 2 ^ 64 ∧ e.2.length < 2 ^ 64

instance (d : List (Key × Value)) : Decidable (snapWf d) := by
  unfold snapWf; infer_instance

/-! ## Theorems -/

theorem leNat_nil : leNat [] = 0 := rfl

theorem leNat_cons (b : Nat) (bs : List Nat) :
    leNat (b :: bs) = b + 256 * leNat bs := rfl

theorem u32le_length (n : Nat) : (u32le n).length = 4 := rfl

theorem u64le_length (n : Nat) : (u64le n).length = 8 := rfl

theorem leNat_u32le (n : Nat) : leNat (u32le n) = n % 2 ^ 32 := by
  simp only [u32le, leNat, List.foldr]
  omega

theorem leNat_u64le (n : Nat) : leNat (u64le n) = n % 2 ^ 64 := by
  simp only [u64le, leNat, List.foldr]
  omega

theorem readLE_exact (n : Nat) (pre rest : List Nat) (h : pre.length = n) :
    readLE n (pre ++ rest) = some (leNat pre, rest) := by
  subst h
  have hlen : ¬ (pre ++ rest).length < pre.length := by
    simp only [List.length_append]; omega
  rw [readLE, if_neg hlen, List.take_left, List.drop_left]

theorem readBytes_exact (n : Nat) (pre rest : List Nat) (h : pre.length = n) :
    readBytes n (pre ++ rest) = some (pre, rest) := by
  subst h
  have hlen : ¬ (pre ++ rest).length < pre.length := by
    simp only [List.length_append]; omega
  rw [readBytes, if_neg hlen, List.take_left, List.drop_left]

theorem serializeOp_length_set (k : Key) (v : Value) :
    (serializeOp (.set k v)).length = 20 + k.length + v.length := by
  simp [serializeOp, u32le, u64le]; omega

theorem serializeOp_length_delete (k : Key) :
    (serializeOp (.delete k)).length = 12 + k.length := by
  simp [serializeOp, u32le, u64le]; omega

/-- Round trip: a serialized operation deserializes back to itself, any
trailing bytes ignored, provided it fits the on-disk format. -/
theorem decodeOp_serializeOp (op : Operation) (extra : List Nat) (h : opWf op) :
    decodeOp (serializeOp op ++ extra) = some op := by
  cases op with
  | set k v =>
    have hk : k.length % 18446744073709551616 = k.length := by
      apply Nat.mod_eq_of_lt
      have := h
      rw [opWf, serializeOp_length_set] at this
      omega
    have hv : v.length % 18446744073709551616 = v.length := by
      apply Nat.mod_eq_of_lt
      have := h
      rw [opWf, serializeOp_length_set] at this
      omega
    simp [decodeOp, serializeOp, List.append_assoc, readLE_exact, readBytes_exact,
          leNat_u32le, leNat_u64le, u32le_length, u64le_length, hk, hv]
  | delete k =>
    have hk : k.length % 18446744073709551616 = k.length := by
      apply Nat.mod_eq_of_lt
      have := h
      rw [opWf, serializeOp_length_delete] at this
      omega
    simp [decodeOp, serializeOp, List.append_assoc, readLE_exact, readBytes_exact,
          leNat_u32le, leNat_u64le, u32le_length, u64le_length, hk]

/-- `decodeOp_serializeOp` specialised to an exact buffer. -/
theorem decodeOp_serializeOp_self (op : Operation) (h : opWf op) :
    decodeOp (serializeOp op) = some op := by
  have := decodeOp_serializeOp op [] h
  rwa [List.append_nil] at this

/-- Replay of a file shorter than one length prefix: the loop breaks at once
and replay succeeds with no callback invocation. -/
theorem replayRun_short (bs : List Nat) (h : bs.length < 4) :
    replayRun bs = ([], true) := by
  rw [replayRun, if_pos h]

/-- Replay of one well-formed record followed by arbitrary bytes: the
callback fires on the record and replay continues on the remaining bytes. -/
theorem replayRun_cons (op : Operation) (more : List Nat) (h : opWf op) :
    replayRun (encodeRecord op ++ more) =
      (op :: (replayRun more).1, (replayRun more).2) := by
  rw [replayRun]
  simp only [encodeRecord, List.append_assoc]
  have h4 : ¬ (u32le (serializeOp op).length ++ (serializeOp op ++ more)).length < 4 := by
    simp only [List.length_append, u32le_length]; omega
  rw [if_neg h4]
  have htake : (u32le (serializeOp op).length ++ (serializeOp op ++ more)).take 4 =
      u32le (serializeOp op).length := by
    have := List.take_left (u32le (serializeOp op).length) (serializeOp op ++ more)
    rwa [u32le_length] at this
  have hdrop : (u32le (serializeOp op).length ++ (serializeOp op ++ more)).drop 4 =
      serializeOp op ++ more := by
    have := List.drop_left (u32le (serializeOp op).length) (serializeOp op ++ more)
    rwa [u32le_length] at this
  simp only [htake, hdrop, leNat_u32le, Nat.mod_eq_of_lt h]
  have hrest : ¬ (serializeOp op ++ more).length < (serializeOp op).length := by
    simp only [List.length_append]; omega
  rw [if_neg hrest, List.take_left, List.drop_left, decodeOp_serializeOp_self op h]

/-- Replay of a well-formed record block followed by arbitrary tail bytes:
callbacks fire on the block in file order, then replay proceeds on the tail. -/
theorem replayRun_append_records (ops : List Operation) (tail : List Nat)
    (hops : ∀ op ∈ ops, opWf op) :
    replayRun (encodeRecords ops ++ tail) =
      (ops ++ (replayRun tail).1, (replayRun tail).2) := by
  induction ops with
  | nil => simp [encodeRecords]
  | cons op rest ih =>
    simp only [encodeRecords, List.append_assoc]
    rw [replayRun_cons op _ (hops op (by simp))]
    rw [ih (fun o ho => hops o (by simp [ho]))]
    simp

/-- C1 counterexample: a WAL file holding one well-formed record (a logged
`Delete` of the empty key) followed by a trailing truncated record whose
4-byte length prefix is complete (announcing 1 payload byte) but whose
payload is absent.  `replay` invokes the callback on the well-formed record
and then returns an **error** — not success as the claim states — because
the payload `read_exact` failure is propagated (`src/db/wal.rs` line 69). -/
theorem replay_truncated_payload_returns_error :
    replayRun (encodeRecord (Operation.delete []) ++ [1, 0, 0, 0]) =
      ([Operation.delete []], false) := by
  rw [replayRun_cons _ _ (by decide), replayRun]
  norm_num [leNat]

/-- C1 (amended): for every WAL file consisting of well-formed length-resolved
records followed by a trailing truncated record that is either a partial
(shorter than 4 bytes) length prefix, or a complete length prefix with its
full announced payload present but not decodable as an `Operation`, replay
invokes the callback once per well-formed record in file order, then stops at
the truncated record and returns success.  (When the length prefix is complete
but the payload is shorter than announced, replay instead propagates the
`read_exact` error — see the counterexample.) -/
theorem replay_tolerates_trailing_truncation (ops : List Operation) (tail : List Nat)
    (hops : ∀ op ∈ ops, opWf op)
    (htail : tail.length < 4 ∨
      (tail.length = 4 + leNat (tail.take 4) ∧ decodeOp (tail.drop 4) = none)) :
    replayRun (encodeRecords ops ++ tail) = (ops, true) := by
  have htail' : replayRun tail = ([], true) := by
    rcases htail with h | ⟨hlen, hdec⟩
    · exact replayRun_short tail h
    · rw [replayRun]
      have h4 : ¬ tail.length < 4 := by omega
      rw [if_neg h4]
      have hrl : (tail.drop 4).length = leNat (tail.take 4) := by
        simp only [List.length_drop]; omega
      have hno : ¬ (tail.drop 4).length < leNat (tail.take 4) := by omega
      rw [if_neg hno]
      have htk : (tail.drop 4).take (leNat (tail.take 4)) = tail.drop 4 := by
        rw [← hrl]; exact List.take_length _
      rw [htk, hdec]
  rw [replayRun_append_records ops tail hops, htail']
  simp

theorem replay_tolerates_trailing_truncation_witness :
    replayRun (encodeRecords [Operation.set [104, 105] [1, 2, 3]] ++ [9, 0]) =
      ([Operation.set [104, 105] [1, 2, 3]], true) :=
  replay_tolerates_trailing_truncation [Operation.set [104, 105] [1, 2, 3]] [9, 0]
    (by decide) (Or.inl (by decide))

theorem alLookup_alInsert (k k' : Key) (v : Value) (l : List (Key × Value)) :
    alLookup k (alInsert k' v l) = if k' = k then some v else alLookup k l := by
  induction l with
  | nil => simp [alInsert, alLookup]
  | cons e rest ih =>
    simp only [alInsert]
    by_cases he : e.1 = k'
    · rw [if_pos he]
      by_cases h : k' = k
      · simp [alLookup, h]
      · simp [alLookup, h, show ¬ e.1 = k from fun hc => h (he.symm.trans hc)]
    · rw [if_neg he]
      simp only [alLookup, ih]
      by_cases h : k' = k
      · rw [if_pos h, if_pos h, if_neg (fun hc : e.1 = k => he (hc.trans h.symm))]
      · rw [if_neg h, if_neg h]

theorem alLookup_alRemove (k k' : Key) (l : List (Key × Value)) :
    alLookup k (alRemove k' l) = if k' = k then none else alLookup k l := by
  induction l with
  | nil => simp [alRemove, alLookup]
  | cons e rest ih =>
    simp only [alRemove]
    by_cases he : e.1 = k'
    · rw [if_pos he, ih]
      by_cases h : k' = k
      · rw [if_pos h, if_pos h]
      · rw [if_neg h, if_neg h]
        simp only [alLookup]
        rw [if_neg (fun hc : e.1 = k => h (he.symm.trans hc))]
    · rw [if_neg he]
      simp only [alLookup, ih]
      by_cases h : k' = k
      · rw [if_pos h, if_pos h, if_neg (fun hc : e.1 = k => he (hc.trans h.symm))]
      · rw [if_neg h, if_neg h]

/-- A fault-free session writes exactly its operations' records to the WAL
and applies exactly their replay interpretation to the engine. -/
theorem runCalls_spec (calls : List DbCall) (s : DBState) :
    (runCalls calls s).wal = s.wal ++ encodeRecords (calls.map callOp) ∧
    (runCalls calls s).engine = applyOps (calls.map callOp) s.engine := by
  induction calls generalizing s with
  | nil => simp [runCalls, encodeRecords, applyOps]
  | cons c rest ih =>
    cases c with
    | set k v =>
      have h := ih (dbSet true k v s).1
      simp only [runCalls, List.foldl, List.map, encodeRecords, applyOps] at h ⊢
      refine ⟨?_, ?_⟩
      · rw [h.1]
        simp [dbSet, walAppend, callOp, List.append_assoc]
      · rw [h.2]
        simp [dbSet, walAppend, callOp, applyOp]
    | delete k =>
      have h := ih (dbDelete true k s).1
      simp only [runCalls, List.foldl, List.map, encodeRecords, applyOps] at h ⊢
      refine ⟨?_, ?_⟩
      · rw [h.1]
        simp [dbDelete, walAppend, callOp, List.append_assoc]
      · rw [h.2]
        simp [dbDelete, walAppend, callOp, applyOp]

theorem applyOp_lookup (e : FileStorageEngine) (op : Operation) (k : Key) :
    alLookup k (applyOp e op).data =
      match opTouch op k with
      | some r => r
      | none => alLookup k e.data := by
  cases op with
  | set k' v =>
    simp only [applyOp, FileStorageEngine.store, opTouch]
    rw [alLookup_alInsert]
    by_cases h : k' = k
    · rw [if_pos h, if_pos h]
    · rw [if_neg h, if_neg h]
  | delete k' =>
    simp only [applyOp, FileStorageEngine.remove, opTouch]
    rw [alLookup_alRemove]
    by_cases h : k' = k
    · rw [if_pos h, if_pos h]
    · rw [if_neg h, if_neg h]

theorem applyOps_lookup (ops : List Operation) (e : FileStorageEngine) (k : Key) :
    alLookup k (applyOps ops e).data =
      match lastTouch ops k with
      | some r => r
      | none => alLookup k e.data := by
  induction ops generalizing e with
  | nil => rfl
  | cons op rest ih =>
    simp only [applyOps, List.foldl] at ih ⊢
    rw [ih (applyOp e op)]
    cases hlt : lastTouch rest k with
    | some r => simp [lastTouch, hlt]
    | none => simp [lastTouch, hlt, applyOp_lookup]

theorem decodeEntries_encode (d : List (Key × Value)) (extra : List Nat)
    (h : ∀ e ∈ d, e.1.length < 2 ^ 64 ∧ e.2.length < 2 ^ 64) :
    decodeEntries d.length ((d.map encodeEntry).flatten ++ extra) = some d := by
  induction d with
  | nil => rfl
  | cons e rest ih =>
    obtain ⟨hk, hv⟩ := h e (List.mem_cons_self e rest)
    have hk64 : e.1.length % 18446744073709551616 = e.1.length := by
      apply Nat.mod_eq_of_lt; norm_num at hk ⊢; omega
    have hv64 : e.2.length % 18446744073709551616 = e.2.length := by
      apply Nat.mod_eq_of_lt; norm_num at hv ⊢; omega
    have ih' := ih fun e' he' => h e' (List.mem_cons_of_mem _ he')
    simp only [List.map, List.flatten, List.append_assoc, List.length_cons]
    simp [decodeEntries, encodeEntry, List.append_assoc, readLE_exact, readBytes_exact,
          leNat_u64le, u64le_length, hk64, hv64, ih']

theorem decodeSnapshot_encodeSnapshot (d : List (Key × Value)) (h : snapWf d) :
    decodeSnapshot (encodeSnapshot d) = some d := by
  obtain ⟨hc, he⟩ := h
  have hc64 : d.length % 18446744073709551616 = d.length := by
    apply Nat.mod_eq_of_lt; norm_num at hc ⊢; omega
  have hentries := decodeEntries_encode d [] he
  rw [List.append_nil] at hentries
  simp [decodeSnapshot, encodeSnapshot, readLE_exact, u64le_length, leNat_u64le,
        hc64, hentries]

theorem encodeSnapshot_ne_nil (d : List (Key × Value)) :
    (encodeSnapshot d).isEmpty = false := by
  simp [encodeSnapshot, u64le]

/-- C2: for every finite sequence of `set`/`delete` calls applied to a
database opened on an empty data directory, closing without a flush and
reopening (a full WAL replay against an empty snapshot) yields, for every
key, the same `get` result as in the original session.  (Each logged
operation is assumed to fit the u32 record-length field, as `append`'s
cast requires.) -/
theorem crash_recovery_preserves_gets (calls : List DbCall)
    (hwf : ∀ c ∈ calls, opWf (callOp c)) :
    ∃ s', dbOpen none (runCalls calls emptyDB).wal = Except.ok s' ∧
      ∀ k, (dbGet k s').2 = (dbGet k (runCalls calls emptyDB)).2 := by
  obtain ⟨hwal, heng⟩ := runCalls_spec calls emptyDB
  have hops : ∀ op ∈ calls.map callOp, opWf op := by
    intro op hop
    obtain ⟨c, hc, rfl⟩ := List.mem_map.mp hop
    exact hwf c hc
  have hreplay : replayRun (encodeRecords (calls.map callOp)) =
      (calls.map callOp, true) := by
    have h0 := replayRun_append_records (calls.map callOp) [] hops
    rw [List.append_nil] at h0
    rw [h0, replayRun_short [] (by simp)]
    simp
  refine ⟨{ engine := applyOps (calls.map callOp) FileStorageEngine.new,
            wal := (runCalls calls emptyDB).wal, events := [] }, ?_, ?_⟩
  · rw [hwal]
    simp only [emptyDB, List.nil_append]
    simp [dbOpen, FileStorageEngine.initEngine, FileStorageEngine.loadFromDisk,
          hreplay, hwal, emptyDB]
  · intro k
    simp only [dbGet, FileStorageEngine.retrieve]
    rw [heng]
    rfl

theorem crash_recovery_preserves_gets_witness :
    ∃ s', dbOpen none
        (runCalls [DbCall.set [104] [1, 2], DbCall.delete [104],
                   DbCall.set [105] [3]] emptyDB).wal = Except.ok s' ∧
      ∀ k, (dbGet k s').2 =
        (dbGet k (runCalls [DbCall.set [104] [1, 2], DbCall.delete [104],
                            DbCall.set [105] [3]] emptyDB)).2 :=
  crash_recovery_preserves_gets
    [DbCall.set [104] [1, 2], DbCall.delete [104], DbCall.set [105] [3]]
    (by decide)

/-- C3: applying the replay interpretation of a logged operation sequence
(`Set` inserts, `Delete` removes) twice in succession to any starting
engine produces the same mapping as applying it once; in particular
replaying a single logged `Set` or `Delete` twice equals replaying it once. -/
theorem replay_idempotent (ops : List Operation) (op : Operation)
    (e : FileStorageEngine) (k : Key) :
    alLookup k (applyOps ops (applyOps ops e)).data
      = alLookup k (applyOps ops e).data ∧
    alLookup k (applyOp (applyOp e op) op).data
      = alLookup k (applyOp e op).data := by
  constructor
  · simp only [applyOps_lookup]
    cases lastTouch ops k <;> rfl
  · simp only [applyOp_lookup]
    cases opTouch op k <;> rfl

/-- C4: a `set` or `delete` whose WAL append fails returns the error and
leaves the storage engine untouched; and for any append outcome, a call
that changed the engine has appended its operation's record to the WAL
(write-ahead ordering). -/
theorem wal_write_ahead_ordering (k : Key) (v : Value) (s : DBState) :
    (dbSet false k v s).1.engine = s.engine ∧
    (dbSet false k v s).2 = Except.error DbError.io ∧
    (dbDelete false k s).1.engine = s.engine ∧
    (dbDelete false k s).2 = Except.error DbError.io ∧
    (∀ ok : Bool, (dbSet ok k v s).1.engine = s.engine ∨
      (dbSet ok k v s).1.wal = s.wal ++ encodeRecord (.set k v)) ∧
    (∀ ok : Bool, (dbDelete ok k s).1.engine = s.engine ∨
      (dbDelete ok k s).1.wal = s.wal ++ encodeRecord (.delete k)) := by
  refine ⟨rfl, rfl, rfl, rfl, fun ok => ?_, fun ok => ?_⟩ <;> cases ok
  · exact Or.inl rfl
  · exact Or.inr rfl
  · exact Or.inl rfl
  · exact Or.inr rfl

/-- C5 counterexample: `remove` of a key that is not present (here: any key,
on a freshly created engine) does **not** set the dirty flag — the code sets
it only under `if existed` (`src/db/engine.rs` lines 132-138), contradicting
the claim that every mutating call, including a remove of an absent key,
sets it. -/
theorem remove_absent_leaves_clean :
    ((FileStorageEngine.new.remove [0]).1).dirty = false := rfl

/-- C5 (amended): `store` always sets the dirty flag; `remove` sets it iff
the key existed, leaving it unchanged for an absent key; `flush` serializes
and overwrites the snapshot file only when the flag is set and clears it,
so a flush immediately following a flush performs no file write. -/
theorem dirty_flag_flush_discipline (e : FileStorageEngine) (k : Key) (v : Value)
    (file : Option (List Nat)) :
    (e.store k v).dirty = true ∧
    (e.remove k).1.dirty = (e.dirty || (alLookup k e.data).isSome) ∧
    e.flush file =
      (if e.dirty then ({ e with dirty := false }, some (encodeSnapshot e.data), true)
       else (e, file, false)) ∧
    ((e.flush file).1.flush (e.flush file).2.1).2.2 = false := by
  refine ⟨rfl, ?_, ?_, ?_⟩
  · cases hd : e.dirty <;> cases hs : (alLookup k e.data).isSome <;>
      simp [FileStorageEngine.remove, hd, hs]
  · cases hd : e.dirty <;>
      simp [FileStorageEngine.flush, FileStorageEngine.saveToDisk, hd]
  · cases hd : e.dirty <;>
      simp [FileStorageEngine.flush, FileStorageEngine.saveToDisk, hd]

/-- C6: `delete` returns whether the key existed (so `false` on an absent
key), always appends a `Delete` record to the WAL, and publishes a `Delete`
event iff the key existed (so none for an absent key); every successful
`set` publishes a `Set` event unconditionally. -/
theorem delete_event_iff_existed (k : Key) (v : Value) (s : DBState) :
    (dbDelete true k s).2 = Except.ok ((alLookup k s.engine.data).isSome) ∧
    (dbDelete true k s).1.wal = s.wal ++ encodeRecord (.delete k) ∧
    (dbDelete true k s).1.events =
      (s.events ++
        if (alLookup k s.engine.data).isSome then [ChangeEvent.delete k] else []) ∧
    (dbSet true k v s).1.events = s.events ++ [ChangeEvent.set k v] := by
  refine ⟨rfl, rfl, ?_, rfl⟩
  cases hs : (alLookup k s.engine.data).isSome <;>
    simp [dbDelete, walAppend, FileStorageEngine.remove, hs]

/-- C7: file-backed initialize succeeds leaving the mapping untouched when
the snapshot file is absent or empty, loads the full mapping when the file
is non-empty and decodable (here: any serialized snapshot), and fails with
a serialization error leaving the mapping unmodified when the file is
non-empty but undecodable. -/
theorem init_snapshot_cases (e : FileStorageEngine) (d : List (Key × Value))
    (bytes : List Nat) (hwf : snapWf d) (hbad : decodeSnapshot bytes = none)
    (hne : bytes ≠ []) :
    e.initEngine none = (e, none) ∧
    e.initEngine (some []) = (e, none) ∧
    e.initEngine (some (encodeSnapshot d)) = ({ e with data := entriesToMap d }, none) ∧
    e.initEngine (some bytes) = (e, some DbError.serialization) := by
  have hbytes : bytes.isEmpty = false := by
    cases bytes with
    | nil => exact absurd rfl hne
    | cons a l => rfl
  refine ⟨rfl, rfl, ?_, ?_⟩
  · simp [FileStorageEngine.initEngine, FileStorageEngine.loadFromDisk,
          decodeSnapshot_encodeSnapshot d hwf, encodeSnapshot_ne_nil]
  · simp [FileStorageEngine.initEngine, FileStorageEngine.loadFromDisk, hbad, hbytes]

theorem init_snapshot_cases_witness :
    FileStorageEngine.new.initEngine (some (encodeSnapshot [([104], [1, 2])])) =
      ({ FileStorageEngine.new with data := entriesToMap [([104], [1, 2])] }, none) ∧
    FileStorageEngine.new.initEngine (some [9]) =
      (FileStorageEngine.new, some DbError.serialization) :=
  ⟨(init_snapshot_cases FileStorageEngine.new [([104], [1, 2])] [9]
      (by decide) (by decide) (by decide)).2.2.1,
   (init_snapshot_cases FileStorageEngine.new [([104], [1, 2])] [9]
      (by decide) (by decide) (by decide)).2.2.2⟩

/-- C8: `get` returns a single read of the storage engine's mapping and
changes nothing: the state (WAL bytes, published events, mapping, dirty
flag) is returned exactly as it was. -/
theorem get_reads_only_storage (k : Key) (s : DBState) :
    (dbGet k s).1 = s ∧
    (dbGet k s).1.wal = s.wal ∧
    (dbGet k s).1.events = s.events ∧
    (dbGet k s).1.engine.data = s.engine.data ∧
    (dbGet k s).1.engine.dirty = s.engine.dirty ∧
    (dbGet k s).2 = alLookup k s.engine.data :=
  ⟨rfl, rfl, rfl, rfl, rfl, rfl⟩

/-- C10: `publish` returns success for every event and every registry state:
each `try_send` result is discarded, a closed (worker-exited) queue is left
unchanged with the event silently dropped, and every open queue receives
the event. -/
theorem publish_always_succeeds (ev : ChangeEvent) (subs : List SubscriberQueue) :
    (publish ev subs).2 = Except.ok () ∧
    (publish ev subs).1 = subs.map fun q =>
      if q.closed then q else { q with queue := q.queue ++ [ev] } := by
  refine ⟨rfl, List.map_congr_left fun q _ => ?_⟩
  cases hq : q.closed <;> simp [trySend, hq]

end LohDB
